import Mathlib

/-!
Verification of the pi-memory extension (`index.ts`).

Strings are modelled as `List Char`.  JavaScript semantics used by the
source are embedded explicitly:
* `jsTrim` models `String.prototype.trim`,
* `splitNl` models `content.split("\n")` (always returns at least one piece),
* `joinNl` models `lines.join("\n")`,
* JS `slice` calls appear as `List.take` / `List.drop` with the bounds that
  hold on the branch where the source performs them,
* the numeric limits (`maxLines`, `maxChars`) are JS numbers that may be
  `Number.POSITIVE_INFINITY` in the overall context pass, hence the `Limit`
  type with a `fin`/`inf` distinction; finite limits are `Int` because the
  source compares possibly non-positive limits with `<=`.
-/

def s2l (s : String) : List Char := s.data

/-- JS whitespace for `trim` (the characters relevant to this code base). -/
def isJsWs (c : Char) : Bool :=
  c = ' ' || c = '\t' || c = '\n' || c = '\r' || c = '\x0b' || c = '\x0c'

/-- `String.prototype.trim`: drop whitespace from both ends. -/
def jsTrim (s : List Char) : List Char :=
  ((s.dropWhile isJsWs).reverse.dropWhile isJsWs).reverse

/-- `content.split("\n")`: split at every newline; never returns `[]`. -/
def splitNl : List Char → List (List Char)
  | [] => [[]]
  | c :: rest =>
    if c = '\n' then [] :: splitNl rest
    else
      match splitNl rest with
      | [] => [[c]]
      | l :: ls => (c :: l) :: ls

/-- `lines.join("\n")`. -/
def joinNl : List (List Char) → List Char
  | [] => []
  | [l] => l
  | l :: ls => l ++ '\n' :: joinNl ls

/-- A JS numeric limit: a finite integer or `Number.POSITIVE_INFINITY`. -/
inductive Limit where
  | fin (n : Int)
  | inf
deriving DecidableEq

/-- `type TruncateMode = "start" | "end" | "middle"`. -/
inductive TruncateMode where
  | start
  | end_
  | middle
deriving DecidableEq

/-- The literal marker `"... (truncated) ..."` used by middle truncation. -/
def marker : List Char := s2l "... (truncated) ..."

/-- `truncateLines(lines, maxLines, mode)` from `index.ts`. -/
def truncateLines (lines : List (List Char)) (maxLines : Limit) (mode : TruncateMode) :
    List (List Char) × Bool :=
  match maxLines with
  | .inf => (lines, false)
  | .fin m =>
    if m ≤ 0 ∨ (lines.length : Int) ≤ m then (lines, false)
    else
      match mode with
      | .end_ => (lines.drop (lines.length - m.toNat), true)
      | .middle =>
        if 1 < m then
          let keep := m.toNat - 1
          let headCount := (keep + 1) / 2
          let tailCount := keep / 2
          let head := lines.take headCount
          let tail := if 0 < tailCount then lines.drop (lines.length - tailCount) else []
          (head ++ [marker] ++ tail, true)
        else (lines.take m.toNat, true)
      | .start => (lines.take m.toNat, true)

/-- `truncateText(text, maxChars, mode)` from `index.ts`. -/
def truncateText (text : List Char) (maxChars : Limit) (mode : TruncateMode) :
    List Char × Bool :=
  match maxChars with
  | .inf => (text, false)
  | .fin m =>
    if m ≤ 0 ∨ (text.length : Int) ≤ m then (text, false)
    else
      match mode with
      | .end_ => (text.drop (text.length - m.toNat), true)
      | .middle =>
        if 10 < m then
          let keep := m - (marker.length : Int)
          if 0 < keep then
            let headCount := (keep.toNat + 1) / 2
            let tailCount := keep.toNat / 2
            (text.take headCount ++ marker ++ text.drop (text.length - tailCount), true)
          else (text.take m.toNat, true)
        else (text.take m.toNat, true)
      | .start => (text.take m.toNat, true)

/-- The `PreviewResult` record of `index.ts`. -/
structure PreviewResult where
  preview : List Char
  truncated : Bool
  totalLines : Nat
  totalChars : Nat
  previewLines : Nat
  previewChars : Nat
deriving DecidableEq

/-- `buildPreview(content, { maxLines, maxChars, mode })` from `index.ts`
(`normalizeContent` is inlined as `jsTrim`, exactly as the source calls it). -/
def buildPreview (content : List Char) (maxLines maxChars : Limit)
    (mode : TruncateMode) : PreviewResult :=
  let normalized := jsTrim content
  if normalized = [] then
    { preview := [], truncated := false, totalLines := 0, totalChars := 0,
      previewLines := 0, previewChars := 0 }
  else
    let lines := splitNl normalized
    let totalLines := lines.length
    let totalChars := normalized.length
    let lineResult := truncateLines lines maxLines mode
    let text := joinNl lineResult.1
    let charResult := truncateText text maxChars mode
    let preview := charResult.1
    let previewLines := if preview = [] then 0 else (splitNl preview).length
    let previewChars := preview.length
    { preview := preview, truncated := lineResult.2 || charResult.2,
      totalLines := totalLines, totalChars := totalChars,
      previewLines := previewLines, previewChars := previewChars }

/-- The text produced by the line pass of `buildPreview` (the input whose
character count the char pass measures). -/
def lineTruncTextOf (content : List Char) (maxLines : Limit) (mode : TruncateMode) :
    List Char :=
  joinNl (truncateLines (splitNl (jsTrim content)) maxLines mode).1

/-!
Scratchpad format (`parseScratchpad` / `serializeScratchpad` in `index.ts`).

The line regexes are embedded as decidable predicates:
* an item line matches `/^- \[([ xX])\] (.+)$/` — JS `.` rejects the four
  line terminators (LF, CR, U+2028, U+2029), `+` needs at least one char;
* a meta line matches `/^<!--.*-->$/`.
-/

/-- Does JS regex `.` (without the `s` flag) match this character? -/
def dotMatch (c : Char) : Bool :=
  !(c = '\n' || c = '\r' || c = '\u2028' || c = '\u2029')

/-- Match of `/^- \[([ xX])\] (.+)$/` against one line:
`some (done, text)` on success. -/
def parseItemLine (line : List Char) : Option (Bool × List Char) :=
  match line with
  | '-' :: ' ' :: '[' :: m :: ']' :: ' ' :: rest =>
    if (m = ' ' || m = 'x' || m = 'X') && !rest.isEmpty && rest.all dotMatch then
      some (m = 'x' || m = 'X', rest)
    else none
  | _ => none

/-- Match of `/^<!--.*-->$/` against one line. -/
def isMetaLine (line : List Char) : Bool :=
  match line with
  | '<' :: '!' :: '-' :: '-' :: rest =>
    decide (3 ≤ rest.length) && rest.drop (rest.length - 3) = ['-', '-', '>']
      && (rest.take (rest.length - 3)).all dotMatch
  | _ => false

/-- `interface ScratchpadItem` from `index.ts`. -/
structure ScratchpadItem where
  done : Bool
  text : List Char
  meta : List Char
deriving DecidableEq

/-- The captured `meta`: the previous raw line when it is a whole-line HTML
comment (`i > 0 && lines[i-1].match(/^<!--.*-->$/)`), else empty. -/
def metaOf : Option (List Char) → List Char
  | some p => if isMetaLine p then p else []
  | none => []

/-- The indexed loop of `parseScratchpad`, carrying the previous raw line
(`none` at line index 0). -/
def parseLines : Option (List Char) → List (List Char) → List ScratchpadItem
  | _, [] => []
  | prev, line :: rest =>
    match parseItemLine line with
    | some (d, t) => ⟨d, t, metaOf prev⟩ :: parseLines (some line) rest
    | none => parseLines (some line) rest

/-- `parseScratchpad(content)` from `index.ts`. -/
def parseScratchpad (content : List Char) : List ScratchpadItem :=
  parseLines none (splitNl content)

/-- The checkbox line `- [x] text` / `- [ ] text` emitted by the serializer. -/
def checkboxLine (it : ScratchpadItem) : List Char :=
  '-' :: ' ' :: '[' :: (if it.done then 'x' else ' ') :: ']' :: ' ' :: it.text

/-- The lines one item contributes to the serialized blob. -/
def itemLines (it : ScratchpadItem) : List (List Char) :=
  (if it.meta = [] then [] else [it.meta]) ++ [checkboxLine it]

/-- `serializeScratchpad(items)` from `index.ts`: title line, blank line,
per-item lines, one trailing newline. -/
def serializeScratchpad (items : List ScratchpadItem) : List Char :=
  joinNl ([s2l "# Scratchpad", []] ++ items.flatMap itemLines) ++ ['\n']

example : parseScratchpad (s2l "# Scratchpad\n\n- [ ] a\n- [x] b\n") =
    [⟨false, ['a'], []⟩, ⟨true, ['b'], []⟩] := by decide

example : serializeScratchpad [⟨false, ['a'], []⟩] = s2l "# Scratchpad\n\n- [ ] a\n" := by
  decide

example : parseScratchpad (s2l "<!-- t -->\n- [X] a") =
    [⟨true, ['a'], s2l "<!-- t -->"⟩] := by decide

/-!
Helper facts about `parseItemLine` / `parseLines`.
-/

theorem parseItemLine_text_ne_nil (line : List Char) (d : Bool) (t : List Char)
    (h : parseItemLine line = some (d, t)) : t ≠ [] := by
  unfold parseItemLine at h
  split at h
  · split at h
    · rename_i cond
      injection h with h'
      injection h' with h1 h2
      subst h2
      simp only [Bool.and_eq_true, Bool.not_eq_true'] at cond
      intro hnil
      subst hnil
      simp at cond
    · exact absurd h (by simp)
  · exact absurd h (by simp)

theorem parseLines_text_ne_nil (prev : Option (List Char)) (ls : List (List Char))
    (it : ScratchpadItem) (h : it ∈ parseLines prev ls) : it.text ≠ [] := by
  induction ls generalizing prev with
  | nil => simp [parseLines] at h
  | cons line rest ih =>
    rw [parseLines] at h
    cases hp : parseItemLine line with
    | none =>
      rw [hp] at h
      exact ih _ h
    | some dt =>
      rw [hp] at h
      rcases List.mem_cons.mp h with h1 | h1
      · subst h1
        exact parseItemLine_text_ne_nil line dt.1 dt.2 (by rw [hp])
      · exact ih _ h1

/-- C10: `parseScratchpad` produces an item only when at least one character
follows the single space after the checkbox marker, so every parsed item has
non-empty `text` and in particular the bare lines `- [ ] `, `- [x] ` and
`- [X] ` (trailing space, no further text) yield no item: empty-text items
cannot be represented in the on-disk format. -/
theorem parseScratchpad_text_nonempty :
    (∀ (content : List Char) (it : ScratchpadItem),
        it ∈ parseScratchpad content → it.text ≠ []) ∧
    parseScratchpad (s2l "- [ ] ") = [] ∧
    parseScratchpad (s2l "- [x] ") = [] ∧
    parseScratchpad (s2l "- [X] ") = [] :=
  ⟨fun _ it h => parseLines_text_ne_nil none _ it h, by decide, by decide, by decide⟩

/-- Witness for `parseScratchpad_text_nonempty`: a concrete parsed item with
its non-emptiness obtained from the theorem. -/
theorem parseScratchpad_text_nonempty_witness :
    (⟨false, ['a'], []⟩ : ScratchpadItem) ∈ parseScratchpad (s2l "- [ ] a") ∧
    (⟨false, ['a'], []⟩ : ScratchpadItem).text ≠ [] :=
  ⟨by decide, parseScratchpad_text_nonempty.1 (s2l "- [ ] a") _ (by decide)⟩

/-- C8: with non-positive `maxLines` and `maxChars` the truncation primitives
are a pass-through: they return the input unchanged and report
`truncated = false`, for any input and any mode. -/
theorem truncate_nonpositive_limits_passthrough
    (lines : List (List Char)) (text : List Char) (L C : Int) (mode : TruncateMode)
    (hL : L ≤ 0) (hC : C ≤ 0) :
    truncateLines lines (.fin L) mode = (lines, false) ∧
    truncateText text (.fin C) mode = (text, false) := by
  constructor
  · rw [truncateLines.eq_def]
    dsimp only
    rw [if_pos (Or.inl hL)]
  · rw [truncateText.eq_def]
    dsimp only
    rw [if_pos (Or.inl hC)]

/-- Witness for `truncate_nonpositive_limits_passthrough` at a concrete input. -/
theorem truncate_nonpositive_limits_passthrough_witness :
    truncateLines [['a'], ['b']] (.fin 0) .middle = ([['a'], ['b']], false) ∧
    truncateText ['a', 'b'] (.fin (-2)) .middle = (['a', 'b'], false) :=
  truncate_nonpositive_limits_passthrough [['a'], ['b']] ['a', 'b'] 0 (-2) .middle
    (by decide) (by decide)

/-- C9 counterexample: at line granularity with `maxLines = 1`, middle-mode
truncation occurs but the result is the first line (plain keep-start), not the
`head ++ marker ++ tail` shape the claim describes (which with
`keep = maxLines - 1 = 0` would be `[marker]` alone). -/
theorem truncateLines_middle_one_not_marker_shape :
    truncateLines [['a'], ['b']] (.fin 1) .middle = ([['a']], true) ∧
    ([['a']] : List (List Char)) ≠
      [['a'], ['b']].take ((1 - 1 + 1) / 2) ++ [marker] ++ [] := by
  constructor
  · decide
  · decide

/-- C9 (amended): under keep-middle truncation the output is the first
`ceil(keep/2)` pieces, the literal marker, and the last `floor(keep/2)` pieces
with `keep = maxLines - 1` (at line granularity, provided `maxLines > 1`) or
`keep = maxChars - marker.length` (at character granularity, provided
`maxChars > 10` and `keep > 0`); at line granularity with `maxLines = 1` the
result is plain keep-start truncation to one line, and at character
granularity with `keep ≤ 0` or `maxChars ≤ 10` it is plain keep-start
truncation to `maxChars` characters. -/
theorem truncate_middle_shape :
    (∀ (lines : List (List Char)) (L : Int), 1 < L → (L : Int) < lines.length →
      truncateLines lines (.fin L) .middle =
        (lines.take ((L.toNat - 1 + 1) / 2) ++ [marker] ++
          lines.drop (lines.length - (L.toNat - 1) / 2), true)) ∧
    (∀ lines : List (List Char), 1 < lines.length →
      truncateLines lines (.fin 1) .middle = (lines.take 1, true)) ∧
    (∀ (text : List Char) (C : Int), 10 < C → 0 < C - (marker.length : Int) →
      (C : Int) < text.length →
      truncateText text (.fin C) .middle =
        (text.take (((C - (marker.length : Int)).toNat + 1) / 2) ++ marker ++
          text.drop (text.length - (C - (marker.length : Int)).toNat / 2), true)) ∧
    (∀ (text : List Char) (C : Int), 0 < C → (C ≤ 10 ∨ C - (marker.length : Int) ≤ 0) →
      (C : Int) < text.length →
      truncateText text (.fin C) .middle = (text.take C.toNat, true)) := by
  refine ⟨?_, ?_, ?_, ?_⟩
  · intro lines L h1 h2
    rw [truncateLines]
    rw [if_neg (by omega)]
    rw [if_pos h1]
    dsimp only
    by_cases ht : 0 < (L.toNat - 1) / 2
    · rw [if_pos ht]
    · rw [if_neg ht]
      have h0 : (L.toNat - 1) / 2 = 0 := by omega
      rw [h0]
      simp
  · intro lines h1
    rw [truncateLines]
    rw [if_neg (by omega)]
    rw [if_neg (by omega)]
    rfl
  · intro text C h10 hkeep hlen
    rw [truncateText]
    rw [if_neg (by omega)]
    rw [if_pos h10]
    dsimp only
    rw [if_pos hkeep]
  · intro text C h0 hfall hlen
    rw [truncateText]
    rw [if_neg (by omega)]
    have hm : (marker.length : Int) = 19 := by decide
    rcases hfall with h | h
    · by_cases h10 : 10 < C
      · rw [if_pos h10]
        dsimp only
        rw [if_neg (by omega)]
      · rw [if_neg h10]
    · by_cases h10 : 10 < C
      · rw [if_pos h10]
        dsimp only
        rw [if_neg (by omega)]
      · rw [if_neg h10]

/-- Witness for `truncate_middle_shape` at concrete inputs. -/
theorem truncate_middle_shape_witness :
    truncateLines [['a'], ['b'], ['c']] (.fin 2) .middle = ([['a'], marker], true) ∧
    truncateLines [['a'], ['b']] (.fin 1) .middle = ([['a']], true) ∧
    truncateText (s2l "abcdefghijklmnopqrstuv") (.fin 21) .middle =
      ('a' :: marker ++ ['v'], true) ∧
    truncateText (s2l "abcde") (.fin 3) .middle = (s2l "abc", true) := by
  refine ⟨?_, ?_, ?_, ?_⟩
  · have h := truncate_middle_shape.1 [['a'], ['b'], ['c']] 2 (by decide) (by decide)
    rw [h]; decide
  · exact truncate_middle_shape.2.1 [['a'], ['b']] (by decide)
  · have h := truncate_middle_shape.2.2.1 (s2l "abcdefghijklmnopqrstuv") 21
      (by decide) (by decide) (by decide)
    rw [h]; decide
  · have h := truncate_middle_shape.2.2.2 (s2l "abcde") 3 (by decide)
      (Or.inl (by decide)) (by decide)
    rw [h]; decide

/-!
Facts about `splitNl` / `joinNl`.
-/

theorem splitNl_ne_nil (s : List Char) : splitNl s ≠ [] := by
  induction s with
  | nil => simp [splitNl]
  | cons c rest ih =>
    rw [splitNl]
    by_cases h : c = '\n'
    · simp [h]
    · rw [if_neg h]
      cases hs : splitNl rest with
      | nil => simp
      | cons l ls => simp

theorem joinNl_cons_cons (l x : List Char) (xs : List (List Char)) :
    joinNl (l :: x :: xs) = l ++ '\n' :: joinNl (x :: xs) := rfl

theorem joinNl_splitNl (s : List Char) : joinNl (splitNl s) = s := by
  induction s with
  | nil => rfl
  | cons c rest ih =>
    rw [splitNl]
    by_cases h : c = '\n'
    · rw [if_pos h]
      obtain ⟨l, ls, hs⟩ := List.exists_cons_of_ne_nil (splitNl_ne_nil rest)
      rw [hs] at ih ⊢
      rw [joinNl_cons_cons, h]
      simp [ih]
    · rw [if_neg h]
      cases hs : splitNl rest with
      | nil => exact absurd hs (splitNl_ne_nil rest)
      | cons l ls =>
        rw [hs] at ih
        cases ls with
        | nil =>
          simp only [joinNl] at ih ⊢
          rw [ih]
        | cons x xs =>
          rw [joinNl_cons_cons] at ih
          rw [joinNl_cons_cons]
          simp only [List.cons_append, ih]

theorem not_nl_mem_splitNl (s : List Char) (l : List Char) (hl : l ∈ splitNl s) :
    '\n' ∉ l := by
  induction s generalizing l with
  | nil =>
    simp [splitNl] at hl
    simp [hl]
  | cons c rest ih =>
    rw [splitNl] at hl
    by_cases h : c = '\n'
    · rw [if_pos h] at hl
      rcases List.mem_cons.mp hl with h1 | h1
      · simp [h1]
      · exact ih l h1
    · rw [if_neg h] at hl
      cases hs : splitNl rest with
      | nil => exact absurd hs (splitNl_ne_nil rest)
      | cons x xs =>
        rw [hs] at hl
        rcases List.mem_cons.mp hl with h1 | h1
        · subst h1
          intro hmem
          rcases List.mem_cons.mp hmem with h2 | h2
          · exact h h2.symm
          · exact ih x (by rw [hs]; exact List.mem_cons_self x xs) h2
        · exact ih l (by rw [hs]; exact List.mem_cons_of_mem x h1)

theorem splitNl_append_nl (l t : List Char) (hl : '\n' ∉ l) :
    splitNl (l ++ '\n' :: t) = l :: splitNl t := by
  induction l with
  | nil => simp [splitNl]
  | cons c cs ih =>
    have hc : c ≠ '\n' := fun h => hl (h ▸ List.mem_cons_self c cs)
    have hcs : '\n' ∉ cs := fun h => hl (List.mem_cons_of_mem c h)
    rw [List.cons_append, splitNl, if_neg hc, ih hcs]

theorem splitNl_no_nl (l : List Char) (hl : '\n' ∉ l) : splitNl l = [l] := by
  induction l with
  | nil => rfl
  | cons c cs ih =>
    have hc : c ≠ '\n' := fun h => hl (h ▸ List.mem_cons_self c cs)
    have hcs : '\n' ∉ cs := fun h => hl (List.mem_cons_of_mem c h)
    rw [splitNl, if_neg hc, ih hcs]

theorem splitNl_joinNl (ls : List (List Char)) (hne : ls ≠ [])
    (h : ∀ l ∈ ls, '\n' ∉ l) : splitNl (joinNl ls) = ls := by
  induction ls with
  | nil => exact absurd rfl hne
  | cons l rest ih =>
    cases rest with
    | nil =>
      simp only [joinNl]
      exact splitNl_no_nl l (h l (List.mem_cons_self l []))
    | cons x xs =>
      rw [joinNl_cons_cons]
      rw [splitNl_append_nl l _ (h l (List.mem_cons_self l _))]
      rw [ih (by simp) (fun a ha => h a (List.mem_cons_of_mem l ha))]

theorem splitNl_length_eq_count (s : List Char) :
    (splitNl s).length = s.count '\n' + 1 := by
  induction s with
  | nil => simp [splitNl]
  | cons c rest ih =>
    rw [splitNl]
    by_cases h : c = '\n'
    · rw [if_pos h]
      simp only [List.length_cons, ih, h]
      rw [List.count_cons_self]
    · rw [if_neg h]
      cases hs : splitNl rest with
      | nil => exact absurd hs (splitNl_ne_nil rest)
      | cons x xs =>
        rw [hs] at ih
        simp only [List.length_cons] at ih ⊢
        rw [List.count_cons_of_ne (Ne.symm h), ih]

theorem count_nl_joinNl (ls : List (List Char)) (hne : ls ≠ [])
    (h : ∀ l ∈ ls, '\n' ∉ l) : (joinNl ls).count '\n' + 1 = ls.length := by
  have h1 := splitNl_length_eq_count (joinNl ls)
  rw [splitNl_joinNl ls hne h] at h1
  omega

/-!
Bounds and flags of the truncation primitives.
-/

theorem marker_length : marker.length = 19 := by decide

theorem truncateText_length_le (text : List Char) (C : Int) (mode : TruncateMode)
    (hC : 0 < C) : ((truncateText text (.fin C) mode).1).length ≤ C.toNat := by
  rw [truncateText.eq_def]
  dsimp only
  by_cases hlen : (text.length : Int) ≤ C
  · rw [if_pos (Or.inr hlen)]
    dsimp only
    omega
  · rw [if_neg (by omega)]
    have hm := marker_length
    cases mode with
    | end_ => simp only [List.length_drop]; omega
    | start => simp only [List.length_take]; omega
    | middle =>
      dsimp only
      by_cases h10 : 10 < C
      · rw [if_pos h10]
        by_cases hkeep : 0 < C - (marker.length : Int)
        · rw [if_pos hkeep]
          simp only [List.length_append, List.length_take, List.length_drop]
          omega
        · rw [if_neg hkeep]
          simp only [List.length_take]
          omega
      · rw [if_neg h10]
        simp only [List.length_take]
        omega

theorem truncateText_snd_eq (text : List Char) (C : Int) (mode : TruncateMode)
    (hC : 0 < C) :
    (truncateText text (.fin C) mode).2 = decide ((C : Int) < text.length) := by
  rw [truncateText.eq_def]
  dsimp only
  by_cases hlen : (text.length : Int) ≤ C
  · rw [if_pos (Or.inr hlen)]
    simp only
    symm
    simp only [decide_eq_false_iff_not]
    omega
  · rw [if_neg (by omega)]
    have hd : decide ((C : Int) < text.length) = true := by
      simp only [decide_eq_true_eq]
      omega
    rw [hd]
    cases mode with
    | end_ => rfl
    | start => rfl
    | middle =>
      dsimp only
      by_cases h10 : 10 < C
      · rw [if_pos h10]
        by_cases hkeep : 0 < C - (marker.length : Int)
        · rw [if_pos hkeep]
        · rw [if_neg hkeep]
      · rw [if_neg h10]

theorem truncateLines_length_le (ls : List (List Char)) (L : Int) (mode : TruncateMode)
    (hL : 0 < L) : ((truncateLines ls (.fin L) mode).1).length ≤ L.toNat := by
  rw [truncateLines.eq_def]
  dsimp only
  by_cases hlen : (ls.length : Int) ≤ L
  · rw [if_pos (Or.inr hlen)]
    dsimp only
    omega
  · rw [if_neg (by omega)]
    cases mode with
    | end_ => simp only [List.length_drop]; omega
    | start => simp only [List.length_take]; omega
    | middle =>
      dsimp only
      by_cases h1 : 1 < L
      · rw [if_pos h1]
        dsimp only
        by_cases ht : 0 < (L.toNat - 1) / 2
        · rw [if_pos ht]
          have e1 : (ls.take ((L.toNat - 1 + 1) / 2)).length = (L.toNat - 1 + 1) / 2 := by
            rw [List.length_take]
            omega
          have e2 : (ls.drop (ls.length - (L.toNat - 1) / 2)).length =
              (L.toNat - 1) / 2 := by
            rw [List.length_drop]
            omega
          simp only [List.length_append, e1, List.length_cons, List.length_nil, e2]
          omega
        · rw [if_neg ht]
          simp only [List.length_append, List.length_take, List.length_cons,
            List.length_nil]
          omega
      · rw [if_neg h1]
        simp only [List.length_take]
        omega

theorem truncateLines_snd_eq (ls : List (List Char)) (L : Int) (mode : TruncateMode)
    (hL : 0 < L) :
    (truncateLines ls (.fin L) mode).2 = decide ((L : Int) < ls.length) := by
  rw [truncateLines.eq_def]
  dsimp only
  by_cases hlen : (ls.length : Int) ≤ L
  · rw [if_pos (Or.inr hlen)]
    simp only
    symm
    simp only [decide_eq_false_iff_not]
    omega
  · rw [if_neg (by omega)]
    have hd : decide ((L : Int) < ls.length) = true := by
      simp only [decide_eq_true_eq]
      omega
    rw [hd]
    cases mode with
    | end_ => rfl
    | start => rfl
    | middle =>
      dsimp only
      by_cases h1 : 1 < L
      · rw [if_pos h1]
      · rw [if_neg h1]

theorem truncateLines_mem (ls : List (List Char)) (lim : Limit) (mode : TruncateMode)
    (l : List Char) (h : l ∈ (truncateLines ls lim mode).1) : l ∈ ls ∨ l = marker := by
  rw [truncateLines.eq_def] at h
  cases lim with
  | inf => exact Or.inl h
  | fin m =>
    dsimp only at h
    by_cases hc : m ≤ 0 ∨ (ls.length : Int) ≤ m
    · rw [if_pos hc] at h
      exact Or.inl h
    · rw [if_neg hc] at h
      cases mode with
      | end_ => exact Or.inl (List.Sublist.mem h (List.drop_sublist _ ls))
      | start => exact Or.inl (List.Sublist.mem h (List.take_sublist _ ls))
      | middle =>
        dsimp only at h
        by_cases h1 : 1 < m
        · rw [if_pos h1] at h
          rcases List.mem_append.mp h with h2 | h2
          · rcases List.mem_append.mp h2 with h3 | h3
            · exact Or.inl (List.Sublist.mem h3 (List.take_sublist _ ls))
            · exact Or.inr (List.mem_singleton.mp h3)
          · by_cases ht : 0 < (m.toNat - 1) / 2
            · rw [if_pos ht] at h2
              exact Or.inl (List.Sublist.mem h2 (List.drop_sublist _ ls))
            · rw [if_neg ht] at h2
              simp at h2
        · rw [if_neg h1] at h
          exact Or.inl (List.Sublist.mem h (List.take_sublist _ ls))

theorem truncateLines_ne_nil (ls : List (List Char)) (lim : Limit) (mode : TruncateMode)
    (hne : ls ≠ []) : (truncateLines ls lim mode).1 ≠ [] := by
  have hlen : 0 < ls.length := List.length_pos.mpr hne
  rw [truncateLines.eq_def]
  cases lim with
  | inf => exact hne
  | fin m =>
    dsimp only
    by_cases hc : m ≤ 0 ∨ (ls.length : Int) ≤ m
    · rw [if_pos hc]
      exact hne
    · rw [if_neg hc]
      cases mode with
      | end_ =>
        simp only [ne_eq, ← List.length_eq_zero, List.length_drop]
        omega
      | start =>
        simp only [ne_eq, ← List.length_eq_zero, List.length_take]
        omega
      | middle =>
        dsimp only
        by_cases h1 : 1 < m
        · rw [if_pos h1]
          simp
        · rw [if_neg h1]
          simp only [ne_eq, ← List.length_eq_zero, List.length_take]
          omega

theorem count_nl_truncateText_le (text : List Char) (lim : Limit) (mode : TruncateMode) :
    ((truncateText text lim mode).1).count '\n' ≤ text.count '\n' := by
  rw [truncateText.eq_def]
  cases lim with
  | inf => exact le_refl _
  | fin m =>
    dsimp only
    by_cases hc : m ≤ 0 ∨ (text.length : Int) ≤ m
    · rw [if_pos hc]
    · rw [if_neg hc]
      cases mode with
      | end_ => exact List.Sublist.count_le (List.drop_sublist _ text) '\n'
      | start => exact List.Sublist.count_le (List.take_sublist _ text) '\n'
      | middle =>
        dsimp only
        by_cases h10 : 10 < m
        · rw [if_pos h10]
          by_cases hkeep : 0 < m - (marker.length : Int)
          · rw [if_pos hkeep]
            simp only [List.count_append]
            have hmark : marker.count '\n' = 0 := by decide
            rw [hmark]
            have hm := marker_length
            set hc2 := ((m - (marker.length : Int)).toNat + 1) / 2 with hhc
            set tc := (m - (marker.length : Int)).toNat / 2 with htc
            have hsum : hc2 + tc ≤ text.length := by omega
            have hdd : text.drop (text.length - tc) =
                (text.drop hc2).drop (text.length - tc - hc2) := by
              rw [List.drop_drop]
              congr 1
              omega
            have h1 : (text.take hc2).count '\n' + (text.drop hc2).count '\n' =
                text.count '\n' := by
              rw [← List.count_append, List.take_append_drop]
            have h2 : (text.drop (text.length - tc)).count '\n' ≤
                (text.drop hc2).count '\n' := by
              rw [hdd]
              exact List.Sublist.count_le (List.drop_sublist _ _) '\n'
            omega
          · rw [if_neg hkeep]
            exact List.Sublist.count_le (List.take_sublist _ text) '\n'
        · rw [if_neg h10]
          exact List.Sublist.count_le (List.take_sublist _ text) '\n'

/-- C1: for every input and finite positive limits, `buildPreview` reports
`previewChars ≤ maxChars` and `previewLines ≤ maxLines`, and `truncated` is
true iff the (normalized) input's line count exceeds `maxLines` or the
line-truncated text's character count exceeds `maxChars`. -/
theorem buildPreview_budget (content : List Char) (mode : TruncateMode) (L C : Int)
    (hL : 0 < L) (hC : 0 < C) :
    ((buildPreview content (.fin L) (.fin C) mode).previewChars : Int) ≤ C ∧
    ((buildPreview content (.fin L) (.fin C) mode).previewLines : Int) ≤ L ∧
    ((buildPreview content (.fin L) (.fin C) mode).truncated = true ↔
      ((L : Int) < (buildPreview content (.fin L) (.fin C) mode).totalLines ∨
        (C : Int) < (lineTruncTextOf content (.fin L) mode).length)) := by
  rw [buildPreview, lineTruncTextOf]
  by_cases hemp : jsTrim content = []
  · rw [if_pos hemp, hemp]
    have h1 : truncateLines (splitNl []) (.fin L) mode = ([[]], false) := by
      rw [truncateLines.eq_def]
      show (if L ≤ 0 ∨ ((1 : Nat) : Int) ≤ L then _ else _) = _
      rw [if_pos (Or.inr (by omega))]
      rfl
    rw [h1]
    dsimp only
    have h2 : (joinNl [[]]).length = 0 := rfl
    rw [h2]
    refine ⟨by omega, by omega, ?_⟩
    simp only [Bool.false_eq_true, false_iff]
    omega
  · rw [if_neg hemp]
    dsimp only
    set normalized := jsTrim content with hnorm
    set lines := splitNl normalized with hlines
    set lineResult := truncateLines lines (.fin L) mode with hlr
    set text := joinNl lineResult.1 with htext
    set charResult := truncateText text (.fin C) mode with hcr
    refine ⟨?_, ?_, ?_⟩
    · have h1 := truncateText_length_le text C mode hC
      rw [← hcr] at h1
      omega
    · by_cases hpe : charResult.1 = []
      · rw [if_pos hpe]
        omega
      · rw [if_neg hpe]
        have hne : lineResult.1 ≠ [] :=
          truncateLines_ne_nil lines (.fin L) mode (splitNl_ne_nil normalized)
        have hnl : ∀ l ∈ lineResult.1, '\n' ∉ l := by
          intro l hl
          rcases truncateLines_mem lines (.fin L) mode l hl with h | h
          · exact not_nl_mem_splitNl normalized l h
          · rw [h]
            decide
        have hcount : text.count '\n' + 1 = lineResult.1.length :=
          count_nl_joinNl lineResult.1 hne hnl
        have hlenb : lineResult.1.length ≤ L.toNat := by
          rw [hlr]
          exact truncateLines_length_le lines L mode hL
        have hple : (splitNl charResult.1).length = charResult.1.count '\n' + 1 :=
          splitNl_length_eq_count charResult.1
        have hcle : charResult.1.count '\n' ≤ text.count '\n' := by
          rw [hcr]
          exact count_nl_truncateText_le text (.fin C) mode
        omega
    · have h1 : lineResult.2 = decide ((L : Int) < lines.length) := by
        rw [hlr]
        exact truncateLines_snd_eq lines L mode hL
      have h2 : charResult.2 = decide ((C : Int) < text.length) := by
        rw [hcr]
        exact truncateText_snd_eq text C mode hC
      rw [h1, h2]
      simp only [Bool.or_eq_true, decide_eq_true_eq]

/-- Witness for `buildPreview_budget` at a concrete input. -/
theorem buildPreview_budget_witness :
    ((buildPreview (s2l "a\nb\nc") (.fin 2) (.fin 3) .start).previewChars : Int) ≤ 3 ∧
    ((buildPreview (s2l "a\nb\nc") (.fin 2) (.fin 3) .start).previewLines : Int) ≤ 2 ∧
    ((buildPreview (s2l "a\nb\nc") (.fin 2) (.fin 3) .start).truncated = true ↔
      ((2 : Int) < (buildPreview (s2l "a\nb\nc") (.fin 2) (.fin 3) .start).totalLines ∨
        (3 : Int) < (lineTruncTextOf (s2l "a\nb\nc") (.fin 2) .start).length)) :=
  buildPreview_budget (s2l "a\nb\nc") .start 2 3 (by decide) (by decide)

/-!
Round-trip of the scratchpad format.
-/

/-- Well-formedness used by the round-trip law: non-empty text whose
characters all match JS `.` (no line terminators), and a meta that is empty
or a whole-line HTML comment. -/
def wfItem (it : ScratchpadItem) : Prop :=
  it.text ≠ [] ∧ it.text.all dotMatch = true ∧
    (it.meta = [] ∨ isMetaLine it.meta = true)

instance : DecidablePred wfItem := fun it => by
  unfold wfItem
  infer_instance

theorem isMetaLine_no_nl (m : List Char) (h : isMetaLine m = true) : '\n' ∉ m := by
  unfold isMetaLine at h
  split at h
  · rename_i rest
    simp only [Bool.and_eq_true, decide_eq_true_eq, List.all_eq_true] at h
    obtain ⟨⟨hlen, hdrop⟩, hall⟩ := h
    intro hmem
    simp only [List.mem_cons] at hmem
    rcases hmem with h1 | h1 | h1 | h1 | h1
    · exact absurd h1 (by decide)
    · exact absurd h1 (by decide)
    · exact absurd h1 (by decide)
    · exact absurd h1 (by decide)
    · have hsplit := (List.take_append_drop (rest.length - 3) rest).symm
      rw [hsplit] at h1
      rcases List.mem_append.mp h1 with h2 | h2
      · exact absurd (hall _ h2) (by decide)
      · rw [hdrop] at h2
        simp at h2
  · simp at h

theorem isMetaLine_not_item (m : List Char) (h : isMetaLine m = true) :
    parseItemLine m = none := by
  unfold isMetaLine at h
  split at h
  · rfl
  · simp at h

theorem checkboxLine_no_nl (it : ScratchpadItem) (h : it.text.all dotMatch = true) :
    '\n' ∉ checkboxLine it := by
  intro hmem
  unfold checkboxLine at hmem
  simp only [List.mem_cons] at hmem
  rcases hmem with h1 | h1 | h1 | h1 | h1 | h1 | h1
  · exact absurd h1 (by decide)
  · exact absurd h1 (by decide)
  · exact absurd h1 (by decide)
  · cases hd : it.done <;> rw [hd] at h1 <;> exact absurd h1 (by decide)
  · exact absurd h1 (by decide)
  · exact absurd h1 (by decide)
  · exact absurd (List.all_eq_true.mp h '\n' h1) (by decide)

theorem isMetaLine_checkboxLine (it : ScratchpadItem) :
    isMetaLine (checkboxLine it) = false := rfl

theorem parseItemLine_checkboxLine (it : ScratchpadItem) (h1 : it.text ≠ [])
    (h2 : it.text.all dotMatch = true) :
    parseItemLine (checkboxLine it) = some (it.done, it.text) := by
  have hne : it.text.isEmpty = false := by
    cases ht : it.text with
    | nil => exact absurd ht h1
    | cons a as => rfl
  cases hd : it.done
  · rw [show checkboxLine it = '-' :: ' ' :: '[' :: ' ' :: ']' :: ' ' :: it.text by
      unfold checkboxLine
      rw [hd]
      rfl]
    show (if ((decide ((' ' : Char) = ' ') || decide ((' ' : Char) = 'x') ||
        decide ((' ' : Char) = 'X')) && !it.text.isEmpty && it.text.all dotMatch) = true then
        some ((decide ((' ' : Char) = 'x') || decide ((' ' : Char) = 'X') : Bool), it.text)
        else none) = some (false, it.text)
    rw [if_pos (by simp [hne, h2])]
    simp
  · rw [show checkboxLine it = '-' :: ' ' :: '[' :: 'x' :: ']' :: ' ' :: it.text by
      unfold checkboxLine
      rw [hd]
      rfl]
    show (if ((decide (('x' : Char) = ' ') || decide (('x' : Char) = 'x') ||
        decide (('x' : Char) = 'X')) && !it.text.isEmpty && it.text.all dotMatch) = true then
        some ((decide (('x' : Char) = 'x') || decide (('x' : Char) = 'X') : Bool), it.text)
        else none) = some (true, it.text)
    rw [if_pos (by simp [hne, h2])]
    simp

theorem joinNl_append_single (L : List (List Char)) (x : List Char) (hne : L ≠ []) :
    joinNl (L ++ [x]) = joinNl L ++ '\n' :: x := by
  induction L with
  | nil => exact absurd rfl hne
  | cons l rest ih =>
    cases rest with
    | nil => rfl
    | cons y ys =>
      have h1 : (l :: y :: ys) ++ [x] = l :: ((y :: ys) ++ [x]) := rfl
      have h2 : (y :: ys) ++ [x] = y :: (ys ++ [x]) := rfl
      rw [h1, h2, joinNl_cons_cons, ← h2, ih (by simp), joinNl_cons_cons]
      simp

theorem parseLines_body (items : List ScratchpadItem)
    (hwf : ∀ it ∈ items, wfItem it) :
    ∀ prev : List Char, isMetaLine prev = false →
      parseLines (some prev) (items.flatMap itemLines ++ [[]]) = items := by
  induction items with
  | nil =>
    intro prev hprev
    rw [List.flatMap_nil, List.nil_append, parseLines]
    rw [show parseItemLine [] = none from rfl]
    rw [parseLines]
  | cons it rest ih =>
    intro prev hprev
    obtain ⟨ht1, ht2, hm⟩ := hwf it (List.mem_cons_self it rest)
    have ihr := ih (fun a ha => hwf a (List.mem_cons_of_mem it ha))
    rw [List.flatMap_cons]
    rcases hm with hm | hm
    · rw [itemLines, if_pos hm, List.nil_append]
      rw [show ([checkboxLine it] ++ rest.flatMap itemLines) ++ [[]] =
        checkboxLine it :: (rest.flatMap itemLines ++ [[]]) by simp]
      rw [parseLines]
      rw [parseItemLine_checkboxLine it ht1 ht2]
      rw [show metaOf (some prev) = if isMetaLine prev then prev else [] from rfl]
      rw [hprev]
      rw [ihr (checkboxLine it) (isMetaLine_checkboxLine it)]
      rw [if_neg (by simp)]
      rw [← hm]
    · rw [itemLines, if_neg (by
        intro hh
        rw [hh] at hm
        exact absurd hm (by decide))]
      rw [show (([it.meta] ++ [checkboxLine it]) ++ rest.flatMap itemLines) ++ [[]] =
        it.meta :: checkboxLine it :: (rest.flatMap itemLines ++ [[]]) by simp]
      rw [parseLines]
      rw [isMetaLine_not_item it.meta hm]
      rw [parseLines]
      rw [parseItemLine_checkboxLine it ht1 ht2]
      rw [show metaOf (some it.meta) = if isMetaLine it.meta then it.meta else [] from rfl]
      rw [hm]
      rw [ihr (checkboxLine it) (isMetaLine_checkboxLine it)]
      rw [if_pos rfl]

/-- C3 counterexample: the round-trip law fails as stated for items with
newline-free text and empty meta — an empty-text item is dropped entirely,
and a text containing a carriage return (not a newline) fails the item
regex, because JS `.` rejects CR. -/
theorem roundtrip_fails_for_empty_or_cr_text :
    parseScratchpad (serializeScratchpad [⟨false, [], []⟩]) ≠ [⟨false, [], []⟩] ∧
    parseScratchpad (serializeScratchpad [⟨false, ['a', '\r', 'b'], []⟩]) ≠
      [⟨false, ['a', '\r', 'b'], []⟩] := by
  constructor
  · decide
  · decide

/-- C3 (amended): for every list of `ScratchpadItem`s in which each item's
text is non-empty and free of the four JS line terminators (LF, CR, U+2028,
U+2029) and each item's meta is the empty string or a syntactically valid
single-line HTML comment occupying a whole line,
`parseScratchpad (serializeScratchpad items) = items` exactly. -/
theorem parseScratchpad_serializeScratchpad (items : List ScratchpadItem)
    (hwf : ∀ it ∈ items, wfItem it) :
    parseScratchpad (serializeScratchpad items) = items := by
  rw [parseScratchpad, serializeScratchpad]
  have hL : ([s2l "# Scratchpad", []] ++ items.flatMap itemLines) ≠ [] := by simp
  rw [show joinNl ([s2l "# Scratchpad", []] ++ items.flatMap itemLines) ++ ['\n'] =
    joinNl (([s2l "# Scratchpad", []] ++ items.flatMap itemLines) ++ [[]]) from
    (joinNl_append_single _ [] hL).symm]
  have hnl : ∀ l ∈ ([s2l "# Scratchpad", []] ++ items.flatMap itemLines) ++ [[]],
      '\n' ∉ l := by
    intro l hl
    rcases List.mem_append.mp hl with h1 | h1
    · rcases List.mem_append.mp h1 with h2 | h2
      · rcases List.mem_cons.mp h2 with h3 | h3
        · rw [h3]; decide
        · rcases List.mem_cons.mp h3 with h4 | h4
          · rw [h4]; simp
          · simp at h4
      · obtain ⟨it, hit, hl2⟩ := List.mem_flatMap.mp h2
        obtain ⟨ht1, ht2, hm⟩ := hwf it hit
        rw [itemLines] at hl2
        rcases List.mem_append.mp hl2 with h3 | h3
        · by_cases hme : it.meta = []
          · rw [if_pos hme] at h3
            simp at h3
          · rw [if_neg hme] at h3
            rcases hm with hm | hm
            · exact absurd hm hme
            · rw [List.mem_singleton.mp h3]
              exact isMetaLine_no_nl it.meta hm
        · rw [List.mem_singleton.mp h3]
          exact checkboxLine_no_nl it ht2
    · rw [List.mem_singleton.mp h1]
      simp
  rw [splitNl_joinNl _ (by simp) hnl]
  rw [show (([s2l "# Scratchpad", []] ++ items.flatMap itemLines) ++ [[]]) =
    s2l "# Scratchpad" :: [] :: (items.flatMap itemLines ++ [[]]) by simp]
  rw [parseLines]
  rw [show parseItemLine (s2l "# Scratchpad") = none by decide]
  rw [parseLines]
  rw [show parseItemLine ([] : List Char) = none from rfl]
  exact parseLines_body items hwf [] (by decide)

/-- Witness for `parseScratchpad_serializeScratchpad` on a concrete list. -/
theorem parseScratchpad_serializeScratchpad_witness :
    (∀ it ∈ [(⟨false, s2l "Fix bug", s2l "<!-- 2026 -->"⟩ : ScratchpadItem),
        ⟨true, s2l "Ship", []⟩], wfItem it) ∧
    parseScratchpad (serializeScratchpad
        [⟨false, s2l "Fix bug", s2l "<!-- 2026 -->"⟩, ⟨true, s2l "Ship", []⟩]) =
      [⟨false, s2l "Fix bug", s2l "<!-- 2026 -->"⟩, ⟨true, s2l "Ship", []⟩] :=
  ⟨by decide, parseScratchpad_serializeScratchpad _ (by decide)⟩

/-!
Context assembly (`formatContextSection` / `buildMemoryContext` in `index.ts`).

`buildMemoryContext` reads its five sources from disk and the clock; here it
is a pure function of a `MemInputs` record holding the file contents
(`none` = `readFileSafe` returned `null`) and the two date strings that
`todayStr()` / `yesterdayStr()` would return.  JS number interpolation
`${n}` for the naturals appearing in truncation notes is `natChars`.
-/

def CONTEXT_LONG_TERM_MAX_CHARS : Int := 4000
def CONTEXT_LONG_TERM_MAX_LINES : Int := 150
def CONTEXT_SCRATCHPAD_MAX_CHARS : Int := 2000
def CONTEXT_SCRATCHPAD_MAX_LINES : Int := 120
def CONTEXT_DAILY_MAX_CHARS : Int := 3000
def CONTEXT_DAILY_MAX_LINES : Int := 120
def CONTEXT_SEARCH_MAX_CHARS : Int := 2500
def CONTEXT_SEARCH_MAX_LINES : Int := 80
def CONTEXT_MAX_CHARS : Int := 16000

/-- Decimal rendering of a natural (JS `${n}` for a non-negative integer). -/
def natChars (n : Nat) : List Char :=
  if n = 0 then ['0'] else ((Nat.digits 10 n).map Nat.digitChar).reverse

/-- The `[truncated: showing …]` note of `formatContextSection`. -/
def truncNote (r : PreviewResult) : List Char :=
  s2l "\n\n[truncated: showing " ++ natChars r.previewLines ++ ['/'] ++
    natChars r.totalLines ++ s2l " lines, " ++ natChars r.previewChars ++ ['/'] ++
    natChars r.totalChars ++ s2l " chars]"

/-- `formatContextSection(label, content, mode, maxLines, maxChars)`. -/
def formatContextSection (label content : List Char) (mode : TruncateMode)
    (maxLines maxChars : Limit) : List Char :=
  let r := buildPreview content maxLines maxChars mode
  if r.preview = [] then []
  else label ++ s2l "\n\n" ++ r.preview ++ (if r.truncated then truncNote r else [])

def scratchpadLabel : List Char := s2l "## SCRATCHPAD.md (working context)"

def todayLabel (d : List Char) : List Char := s2l "## Daily log: " ++ d ++ s2l " (today)"

def yesterdayLabel (d : List Char) : List Char :=
  s2l "## Daily log: " ++ d ++ s2l " (yesterday)"

def searchLabel : List Char := s2l "## Relevant memories (auto-retrieved)"

def longTermLabel : List Char := s2l "## MEMORY.md (long-term)"

/-- The scratchpad block of `buildMemoryContext`: parse, keep open items,
re-serialize, format with keep-start truncation. -/
def scratchpadSectionOf (sp : Option (List Char)) : List Char :=
  match sp with
  | none => []
  | some blob =>
    if jsTrim blob = [] then []
    else
      let openItems := (parseScratchpad blob).filter (fun i => !i.done)
      if 0 < openItems.length then
        formatContextSection scratchpadLabel (serializeScratchpad openItems) .start
          (.fin CONTEXT_SCRATCHPAD_MAX_LINES) (.fin CONTEXT_SCRATCHPAD_MAX_CHARS)
      else []

/-- A daily-log block (today or yesterday): keep-end truncation. -/
def dailySectionOf (label : List Char) (c : Option (List Char)) : List Char :=
  match c with
  | none => []
  | some content =>
    if jsTrim content = [] then []
    else formatContextSection label content .end_
      (.fin CONTEXT_DAILY_MAX_LINES) (.fin CONTEXT_DAILY_MAX_CHARS)

/-- The search-results block: keep-start truncation. -/
def searchSectionOf (c : Option (List Char)) : List Char :=
  match c with
  | none => []
  | some content =>
    if jsTrim content = [] then []
    else formatContextSection searchLabel content .start
      (.fin CONTEXT_SEARCH_MAX_LINES) (.fin CONTEXT_SEARCH_MAX_CHARS)

/-- The long-term block: keep-middle truncation. -/
def longTermSectionOf (c : Option (List Char)) : List Char :=
  match c with
  | none => []
  | some content =>
    if jsTrim content = [] then []
    else formatContextSection longTermLabel content .middle
      (.fin CONTEXT_LONG_TERM_MAX_LINES) (.fin CONTEXT_LONG_TERM_MAX_CHARS)

/-- The inputs `buildMemoryContext` reads: file contents and date strings. -/
structure MemInputs where
  scratchpad : Option (List Char)
  todayLog : Option (List Char)
  searchResults : Option (List Char)
  longTerm : Option (List Char)
  yesterdayLog : Option (List Char)
  today : List Char
  yesterday : List Char

/-- `if (section) sections.push(section)`. -/
def pushIf (s : List Char) : List (List Char) := if s = [] then [] else [s]

/-- The `sections` array after the five conditional pushes. -/
def sectionsOf (inp : MemInputs) : List (List Char) :=
  pushIf (scratchpadSectionOf inp.scratchpad) ++
    pushIf (dailySectionOf (todayLabel inp.today) inp.todayLog) ++
    pushIf (searchSectionOf inp.searchResults) ++
    pushIf (longTermSectionOf inp.longTerm) ++
    pushIf (dailySectionOf (yesterdayLabel inp.yesterday) inp.yesterdayLog)

def divider : List Char := s2l "\n\n---\n\n"

/-- `sections.join("\n\n---\n\n")`. -/
def joinSections : List (List Char) → List Char
  | [] => []
  | [s] => s
  | s :: rest => s ++ divider ++ joinSections rest

/-- The concatenated context before the overall cap pass. -/
def assembledContext (inp : MemInputs) : List Char :=
  s2l "# Memory\n\n" ++ joinSections (sectionsOf inp)

/-- The `[truncated overall context: …]` note. -/
def overallNote (r : PreviewResult) : List Char :=
  s2l "\n\n[truncated overall context: showing " ++ natChars r.previewChars ++
    ['/'] ++ natChars r.totalChars ++ s2l " chars]"

/-- `buildMemoryContext(searchResults?)` from `index.ts`, as a pure function
of the backing contents. -/
def buildMemoryContext (inp : MemInputs) : List Char :=
  if sectionsOf inp = [] then []
  else
    let context := assembledContext inp
    if CONTEXT_MAX_CHARS < (context.length : Int) then
      let r := buildPreview context .inf (.fin CONTEXT_MAX_CHARS) .start
      r.preview ++ (if r.truncated then overallNote r else [])
    else context

/-- The truncation-notice suffix the overall pass appends (empty when the
overall pass does not run or does not truncate). -/
def overallNoticeOf (inp : MemInputs) : List Char :=
  if sectionsOf inp = [] then []
  else
    let context := assembledContext inp
    if CONTEXT_MAX_CHARS < (context.length : Int) then
      let r := buildPreview context .inf (.fin CONTEXT_MAX_CHARS) .start
      if r.truncated then overallNote r else []
    else []

theorem buildPreview_preview_length_le (content : List Char) (lim : Limit) (C : Int)
    (mode : TruncateMode) (hC : 0 < C) :
    ((buildPreview content lim (.fin C) mode).preview).length ≤ C.toNat := by
  rw [buildPreview]
  by_cases hemp : jsTrim content = []
  · rw [if_pos hemp]
    simp
  · rw [if_neg hemp]
    exact truncateText_length_le _ C mode hC

/-- C2: the final output of `buildMemoryContext` never exceeds the overall
cap `CONTEXT_MAX_CHARS = 16000` plus the length of the truncation-notice
suffix appended when the overall pass truncates. -/
theorem buildMemoryContext_length_le (inp : MemInputs) :
    (buildMemoryContext inp).length ≤ 16000 + (overallNoticeOf inp).length ∧
    CONTEXT_MAX_CHARS = 16000 := by
  refine ⟨?_, rfl⟩
  rw [buildMemoryContext, overallNoticeOf]
  by_cases h1 : sectionsOf inp = []
  · rw [if_pos h1, if_pos h1]
    simp
  · rw [if_neg h1, if_neg h1]
    dsimp only
    by_cases h2 : CONTEXT_MAX_CHARS < ((assembledContext inp).length : Int)
    · rw [if_pos h2, if_pos h2]
      have h3 := buildPreview_preview_length_le (assembledContext inp) .inf
        CONTEXT_MAX_CHARS .start (by decide)
      rw [List.length_append]
      have h4 : CONTEXT_MAX_CHARS.toNat = 16000 := rfl
      omega
    · rw [if_neg h2, if_neg h2]
      simp only [List.length_nil]
      rw [show CONTEXT_MAX_CHARS = (16000 : Int) from rfl] at h2
      omega

/-!
Substring occurrence, for statements about text "containing" something.
-/

/-- Is `p` a prefix of `s`? -/
def leads : List Char → List Char → Bool
  | [], _ => true
  | _ :: _, [] => false
  | c :: p, d :: s => c = d && leads p s

/-- Does `p` occur as a contiguous substring of `s`? -/
def hasSub (p : List Char) : List Char → Bool
  | [] => p.isEmpty
  | d :: s => leads p (d :: s) || hasSub p s

/-- C4 counterexample: a scratchpad with a done item whose text is `a` and an
open item `b`: the rendered scratchpad section still contains the character
`a` (for instance inside its `# Scratchpad` header), so the section is not
free of the done item's text in the substring sense. -/
theorem scratchpadSection_contains_done_text :
    (⟨true, ['a'], []⟩ : ScratchpadItem) ∈ parseScratchpad (s2l "- [x] a\n- [ ] b") ∧
    (⟨true, ['a'], []⟩ : ScratchpadItem).done = true ∧
    hasSub ['a'] (scratchpadSectionOf (some (s2l "- [x] a\n- [ ] b"))) = true := by
  refine ⟨by decide, rfl, by decide⟩

/-- C4 (amended): the scratchpad section renders exactly the open items —
every item in the list it serializes has `done = false`, so no done item's
entry is rendered — and a scratchpad whose parsed items are all done (or
that parses to no items, or is blank) contributes no section at all. -/
theorem scratchpadSection_only_open_items (blob : List Char) :
    (∀ it ∈ (parseScratchpad blob).filter (fun i => !i.done), it.done = false) ∧
    scratchpadSectionOf (some blob) =
      (if jsTrim blob = [] then []
       else if 0 < ((parseScratchpad blob).filter (fun i => !i.done)).length then
         formatContextSection scratchpadLabel
           (serializeScratchpad ((parseScratchpad blob).filter (fun i => !i.done)))
           .start (.fin CONTEXT_SCRATCHPAD_MAX_LINES) (.fin CONTEXT_SCRATCHPAD_MAX_CHARS)
       else []) ∧
    ((∀ it ∈ parseScratchpad blob, it.done = true) →
      scratchpadSectionOf (some blob) = []) := by
  refine ⟨?_, rfl, ?_⟩
  · intro it hit
    have := List.of_mem_filter hit
    simpa using this
  · intro hall
    have hfil : (parseScratchpad blob).filter (fun i => !i.done) = [] := by
      rw [List.filter_eq_nil_iff]
      intro a ha
      rw [hall a ha]
      simp
    rw [scratchpadSectionOf]
    by_cases hemp : jsTrim blob = []
    · rw [if_pos hemp]
    · rw [if_neg hemp]
      dsimp only
      rw [hfil]
      simp

/-- Witness for `scratchpadSection_only_open_items` at concrete scratchpads. -/
theorem scratchpadSection_only_open_items_witness :
    (⟨false, ['b'], []⟩ : ScratchpadItem) ∈
      (parseScratchpad (s2l "- [x] a\n- [ ] b")).filter (fun i => !i.done) ∧
    (⟨false, ['b'], []⟩ : ScratchpadItem).done = false ∧
    (∀ it ∈ parseScratchpad (s2l "- [x] a"), it.done = true) ∧
    scratchpadSectionOf (some (s2l "- [x] a")) = [] :=
  ⟨by decide,
   (scratchpadSection_only_open_items (s2l "- [x] a\n- [ ] b")).1 _ (by decide),
   by decide,
   (scratchpadSection_only_open_items (s2l "- [x] a")).2.2 (by decide)⟩

/-!
The qmd output normalization of `runQmdSearch` in `index.ts`:
`JSON.parse(stdout)` followed by
`Array.isArray(parsed) ? parsed : (parsed.results ?? parsed.hits ?? [])`,
with any exception turning into
`Failed to parse qmd output: ${stdout.slice(0, 200)}`.

`JSON.parse` is embedded as a fuel-driven recursive-descent parser of the
JSON grammar.  Numbers are kept as their raw lexemes (`Json.num`) — the
claims checked here do not depend on JS float semantics.
-/

inductive Json where
  | null
  | bool (b : Bool)
  | num (lexeme : List Char)
  | str (s : List Char)
  | arr (xs : List Json)
  | obj (fields : List (List Char × Json))

/-- The JSON whitespace accepted by `JSON.parse`. -/
def jsonWs (c : Char) : Bool := c = ' ' || c = '\t' || c = '\n' || c = '\r'

def skipJsonWs : List Char → List Char
  | c :: rest => if jsonWs c then skipJsonWs rest else c :: rest
  | [] => []

def hexVal (c : Char) : Option Nat :=
  if '0' ≤ c ∧ c ≤ '9' then some (c.toNat - 48)
  else if 'a' ≤ c ∧ c ≤ 'f' then some (c.toNat - 87)
  else if 'A' ≤ c ∧ c ≤ 'F' then some (c.toNat - 55)
  else none

/-- JSON string body after the opening quote; returns content and rest. -/
def parseStrBody : List Char → List Char → Option (List Char × List Char)
  | acc, '"' :: rest => some (acc.reverse, rest)
  | acc, '\\' :: 'u' :: a :: b :: c :: d :: rest =>
    (match hexVal a, hexVal b, hexVal c, hexVal d with
     | some x1, some x2, some x3, some x4 =>
       parseStrBody (Char.ofNat (((x1 * 16 + x2) * 16 + x3) * 16 + x4) :: acc) rest
     | _, _, _, _ => none)
  | acc, '\\' :: e :: rest =>
    (match e with
     | '"' => some '"'
     | '\\' => some '\\'
     | '/' => some '/'
     | 'b' => some '\x08'
     | 'f' => some '\x0c'
     | 'n' => some '\n'
     | 'r' => some '\r'
     | 't' => some '\t'
     | _ => none).bind (fun ch => parseStrBody (ch :: acc) rest)
  | acc, ch :: rest =>
    if ch.toNat < 32 then none else parseStrBody (ch :: acc) rest
  | _, [] => none

/-- Greedy run of decimal digits. -/
def takeDigits : List Char → List Char × List Char
  | c :: rest =>
    if c.isDigit then
      let p := takeDigits rest
      (c :: p.1, p.2)
    else ([], c :: rest)
  | [] => ([], [])

/-- Optional exponent part of a JSON number. -/
def parseNumExp (mantissa : List Char) (s : List Char) :
    Option (List Char × List Char) :=
  match s with
  | e :: r =>
    if e = 'e' ∨ e = 'E' then
      match r with
      | sg :: r2 =>
        if sg = '+' ∨ sg = '-' then
          let p := takeDigits r2
          if p.1 = [] then none else some (mantissa ++ e :: sg :: p.1, p.2)
        else
          let p := takeDigits r
          if p.1 = [] then none else some (mantissa ++ e :: p.1, p.2)
      | [] => none
    else some (mantissa, s)
  | [] => some (mantissa, [])

/-- Optional fraction part of a JSON number. -/
def parseNumFrac (intPart : List Char) (s : List Char) :
    Option (List Char × List Char) :=
  match s with
  | '.' :: r =>
    let p := takeDigits r
    if p.1 = [] then none else parseNumExp (intPart ++ '.' :: p.1) p.2
  | _ => parseNumExp intPart s

/-- A JSON number lexeme: `-?(0|[1-9][0-9]*)(\.[0-9]+)?([eE][+-]?[0-9]+)?`. -/
def parseNum (s : List Char) : Option (List Char × List Char) :=
  match s with
  | '-' :: c :: r =>
    if c = '0' then parseNumFrac ['-', c] r
    else if c.isDigit then
      let p := takeDigits r
      parseNumFrac ('-' :: c :: p.1) p.2
    else none
  | c :: r =>
    if c = '0' then parseNumFrac [c] r
    else if c.isDigit then
      let p := takeDigits r
      parseNumFrac (c :: p.1) p.2
    else none
  | [] => none

/-- Parser state: a value, the elements of an array after `[`, or the
members of an object after `\x7b` (non-empty cases). -/
inductive PState where
  | val (s : List Char)
  | arrElems (s : List Char) (acc : List Json)
  | objMembers (s : List Char) (acc : List (List Char × Json))

/-- Fuel-driven JSON value parser. -/
def pstep : Nat → PState → Option (Json × List Char)
  | 0, _ => none
  | fuel + 1, .val s =>
    match skipJsonWs s with
    | 'n' :: 'u' :: 'l' :: 'l' :: r => some (.null, r)
    | 't' :: 'r' :: 'u' :: 'e' :: r => some (.bool true, r)
    | 'f' :: 'a' :: 'l' :: 's' :: 'e' :: r => some (.bool false, r)
    | '"' :: r => (parseStrBody [] r).map (fun p => (.str p.1, p.2))
    | '[' :: r =>
      (match skipJsonWs r with
       | ']' :: r2 => some (.arr [], r2)
       | _ => pstep fuel (.arrElems r []))
    | '\x7b' :: r =>
      (match skipJsonWs r with
       | '\x7d' :: r2 => some (.obj [], r2)
       | _ => pstep fuel (.objMembers r []))
    | s2 => (parseNum s2).map (fun p => (.num p.1, p.2))
  | fuel + 1, .arrElems s acc =>
    match pstep fuel (.val s) with
    | some (j, r) =>
      (match skipJsonWs r with
       | ',' :: r2 => pstep fuel (.arrElems r2 (j :: acc))
       | ']' :: r2 => some (.arr (j :: acc).reverse, r2)
       | _ => none)
    | none => none
  | fuel + 1, .objMembers s acc =>
    match skipJsonWs s with
    | '"' :: r =>
      (match parseStrBody [] r with
       | some (key, r2) =>
         (match skipJsonWs r2 with
          | ':' :: r3 =>
            (match pstep fuel (.val r3) with
             | some (j, r4) =>
               (match skipJsonWs r4 with
                | ',' :: r5 => pstep fuel (.objMembers r5 ((key, j) :: acc))
                | '\x7d' :: r5 => some (.obj ((key, j) :: acc).reverse, r5)
                | _ => none)
             | none => none)
          | _ => none)
       | none => none)
    | _ => none

/-- `JSON.parse(stdout)`: whole-input parse, `none` on any syntax error. -/
def jsonParse (s : List Char) : Option Json :=
  match pstep (2 * s.length + 4) (.val s) with
  | some (j, rest) => if skipJsonWs rest = [] then some j else none
  | none => none

/-- JS property lookup on a parsed object (duplicate keys: last wins). -/
def jGet (fields : List (List Char × Json)) (key : List Char) : Option Json :=
  ((fields.filter (fun kv => kv.1 = key)).reverse.head?).map (fun kv => kv.2)

def nullish : Json → Bool
  | .null => true
  | _ => false

/-- `parsed.hits ?? []`. -/
def hitsOr (fields : List (List Char × Json)) : Json :=
  match jGet fields (s2l "hits") with
  | some w => if nullish w then .arr [] else w
  | none => .arr []

/-- `parsed.results ?? parsed.hits ?? []`. -/
def qmdResultsField (fields : List (List Char × Json)) : Json :=
  match jGet fields (s2l "results") with
  | some v => if nullish v then hitsOr fields else v
  | none => hitsOr fields

/-- The rejection message of `runQmdSearch`'s catch branch. -/
def qmdParseFail (stdout : List Char) : List Char :=
  s2l "Failed to parse qmd output: " ++ stdout.take 200

/-- The stdout normalization inside `runQmdSearch`: parse, then take the
array itself or the `results`/`hits` field; a parse failure (including the
`TypeError` of `null.results`) rejects with the parse-fail message. -/
def runQmdSearchNormalize (stdout : List Char) : Except (List Char) Json :=
  match jsonParse stdout with
  | none => .error (qmdParseFail stdout)
  | some (.arr xs) => .ok (.arr xs)
  | some (.obj fields) => .ok (qmdResultsField fields)
  | some .null => .error (qmdParseFail stdout)
  | some _ => .ok (.arr [])

example : jsonParse (s2l " [1, true, \"a\"] ") =
    some (.arr [.num ['1'], .bool true, .str ['a']]) := rfl

example : jsonParse (s2l "\x7b\"results\": []\x7d") =
    some (.obj [(s2l "results", .arr [])]) := rfl

/-- The two-record JSON payload used in the normalizer scenarios. -/
def cleanPayload : List Char :=
  s2l "[\x7b\"path\":\"A.md\",\"content\":\"Hello\"\x7d,\x7b\"path\":\"B.md\",\"content\":\"World\"\x7d]"

/-- The same payload preceded by ANSI spinner/status noise, as emitted by a
qmd subprocess. -/
def noisyStdout : List Char :=
  s2l "\u001b[?25l* Gathering information\n\u001b[2K\u001b[1A\u001b[2K\u001b[G. downloaded\n" ++
    cleanPayload

set_option maxRecDepth 16384 in
/-- C6: the source's `runQmdSearch` does not strip leading noise — it calls
`JSON.parse` on the raw stdout, so a valid two-element array preceded by ANSI
noise is rejected with a parse error instead of normalizing to the two
records (which the clean payload does produce, fields preserved verbatim).
The repository's own unit tests (`runQmdSearch parses noisy JSON output`)
expect the two records. -/
theorem runQmdSearch_rejects_noisy_json :
    runQmdSearchNormalize noisyStdout = .error (qmdParseFail noisyStdout) ∧
    runQmdSearchNormalize cleanPayload =
      .ok (.arr
        [.obj [(s2l "path", .str (s2l "A.md")), (s2l "content", .str (s2l "Hello"))],
         .obj [(s2l "path", .str (s2l "B.md")), (s2l "content", .str (s2l "World"))]]) :=
  ⟨rfl, rfl⟩

set_option maxRecDepth 16384 in
/-- C7: on the literal sentinel stdout `No results found.` the source's
`runQmdSearch` rejects with a parse error instead of resolving with an empty
result list.  The repository's own unit tests
(`runQmdSearch parses "No results found" output`) expect zero results; the
caller `searchRelevantMemories` catches the rejection and degrades to an
empty string. -/
theorem runQmdSearch_rejects_no_results_sentinel :
    runQmdSearchNormalize (s2l "No results found.") =
      .error (qmdParseFail (s2l "No results found.")) := rfl

/-!
Label ordering in `buildMemoryContext` (section 5 of the context builder).
-/

/-- The five label texts occur in the output in the given left-to-right
order. -/
def labelsInOrder (out l1 l2 l3 l4 l5 : List Char) : Prop :=
  ∃ a b c d e f, out = a ++ l1 ++ b ++ l2 ++ c ++ l3 ++ d ++ l4 ++ e ++ l5 ++ f

theorem formatContextSection_starts (label content : List Char) (mode : TruncateMode)
    (ml mc : Limit) (h : formatContextSection label content mode ml mc ≠ []) :
    ∃ rest, formatContextSection label content mode ml mc = label ++ rest := by
  rw [formatContextSection] at h ⊢
  by_cases hp : (buildPreview content ml mc mode).preview = []
  · rw [if_pos hp] at h
    exact absurd rfl h
  · rw [if_neg hp]
    exact ⟨s2l "\n\n" ++ ((buildPreview content ml mc mode).preview ++
      (if (buildPreview content ml mc mode).truncated = true then
        truncNote (buildPreview content ml mc mode) else [])), by
      simp [List.append_assoc]⟩

theorem scratchpadSectionOf_starts (sp : Option (List Char))
    (h : scratchpadSectionOf sp ≠ []) :
    ∃ rest, scratchpadSectionOf sp = scratchpadLabel ++ rest := by
  match sp with
  | none => exact absurd rfl h
  | some blob =>
    rw [scratchpadSectionOf] at h ⊢
    by_cases h1 : jsTrim blob = []
    · rw [if_pos h1] at h
      exact absurd rfl h
    · rw [if_neg h1] at h ⊢
      dsimp only at h ⊢
      by_cases h2 : 0 < ((parseScratchpad blob).filter (fun i => !i.done)).length
      · rw [if_pos h2] at h ⊢
        exact formatContextSection_starts _ _ _ _ _ h
      · rw [if_neg h2] at h
        exact absurd rfl h

theorem dailySectionOf_starts (label : List Char) (c : Option (List Char))
    (h : dailySectionOf label c ≠ []) :
    ∃ rest, dailySectionOf label c = label ++ rest := by
  match c with
  | none => exact absurd rfl h
  | some content =>
    rw [dailySectionOf] at h ⊢
    by_cases h1 : jsTrim content = []
    · rw [if_pos h1] at h
      exact absurd rfl h
    · rw [if_neg h1] at h ⊢
      exact formatContextSection_starts _ _ _ _ _ h

theorem searchSectionOf_starts (c : Option (List Char))
    (h : searchSectionOf c ≠ []) :
    ∃ rest, searchSectionOf c = searchLabel ++ rest := by
  match c with
  | none => exact absurd rfl h
  | some content =>
    rw [searchSectionOf] at h ⊢
    by_cases h1 : jsTrim content = []
    · rw [if_pos h1] at h
      exact absurd rfl h
    · rw [if_neg h1] at h ⊢
      exact formatContextSection_starts _ _ _ _ _ h

theorem longTermSectionOf_starts (c : Option (List Char))
    (h : longTermSectionOf c ≠ []) :
    ∃ rest, longTermSectionOf c = longTermLabel ++ rest := by
  match c with
  | none => exact absurd rfl h
  | some content =>
    rw [longTermSectionOf] at h ⊢
    by_cases h1 : jsTrim content = []
    · rw [if_pos h1] at h
      exact absurd rfl h
    · rw [if_neg h1] at h ⊢
      exact formatContextSection_starts _ _ _ _ _ h

theorem pushIf_ne (s : List Char) (h : s ≠ []) : pushIf s = [s] := by
  rw [pushIf, if_neg h]

/-- Helper: whenever all five sections are non-empty and the assembled
context is within the overall cap (so the overall truncation pass does not
run), `buildMemoryContext` is the single heading followed by the five
sections in fixed order joined by the divider, and the five label texts occur
in the output in exactly that left-to-right order. -/
theorem buildMemoryContext_labels_in_order (inp : MemInputs)
    (h1 : scratchpadSectionOf inp.scratchpad ≠ [])
    (h2 : dailySectionOf (todayLabel inp.today) inp.todayLog ≠ [])
    (h3 : searchSectionOf inp.searchResults ≠ [])
    (h4 : longTermSectionOf inp.longTerm ≠ [])
    (h5 : dailySectionOf (yesterdayLabel inp.yesterday) inp.yesterdayLog ≠ [])
    (hcap : ((assembledContext inp).length : Int) ≤ CONTEXT_MAX_CHARS) :
    buildMemoryContext inp =
      s2l "# Memory\n\n" ++ scratchpadSectionOf inp.scratchpad ++ divider ++
        dailySectionOf (todayLabel inp.today) inp.todayLog ++ divider ++
        searchSectionOf inp.searchResults ++ divider ++
        longTermSectionOf inp.longTerm ++ divider ++
        dailySectionOf (yesterdayLabel inp.yesterday) inp.yesterdayLog ∧
    labelsInOrder (buildMemoryContext inp) scratchpadLabel (todayLabel inp.today)
      searchLabel longTermLabel (yesterdayLabel inp.yesterday) := by
  have hsec : sectionsOf inp =
      [scratchpadSectionOf inp.scratchpad,
       dailySectionOf (todayLabel inp.today) inp.todayLog,
       searchSectionOf inp.searchResults,
       longTermSectionOf inp.longTerm,
       dailySectionOf (yesterdayLabel inp.yesterday) inp.yesterdayLog] := by
    rw [sectionsOf, pushIf_ne _ h1, pushIf_ne _ h2, pushIf_ne _ h3, pushIf_ne _ h4,
      pushIf_ne _ h5]
    rfl
  have hout : buildMemoryContext inp = assembledContext inp := by
    rw [buildMemoryContext, if_neg (by rw [hsec]; simp)]
    dsimp only
    rw [if_neg (by omega)]
  have hctx : assembledContext inp =
      s2l "# Memory\n\n" ++ scratchpadSectionOf inp.scratchpad ++ divider ++
        dailySectionOf (todayLabel inp.today) inp.todayLog ++ divider ++
        searchSectionOf inp.searchResults ++ divider ++
        longTermSectionOf inp.longTerm ++ divider ++
        dailySectionOf (yesterdayLabel inp.yesterday) inp.yesterdayLog := by
    rw [assembledContext, hsec]
    have hj : joinSections
        [scratchpadSectionOf inp.scratchpad,
         dailySectionOf (todayLabel inp.today) inp.todayLog,
         searchSectionOf inp.searchResults,
         longTermSectionOf inp.longTerm,
         dailySectionOf (yesterdayLabel inp.yesterday) inp.yesterdayLog] =
        scratchpadSectionOf inp.scratchpad ++ (divider ++
          (dailySectionOf (todayLabel inp.today) inp.todayLog ++ (divider ++
          (searchSectionOf inp.searchResults ++ (divider ++
          (longTermSectionOf inp.longTerm ++ (divider ++
          dailySectionOf (yesterdayLabel inp.yesterday) inp.yesterdayLog))))))) := by
      simp [joinSections, List.append_assoc]
    rw [hj]
    simp [List.append_assoc]
  refine ⟨by rw [hout, hctx], ?_⟩
  obtain ⟨r1, hr1⟩ := scratchpadSectionOf_starts _ h1
  obtain ⟨r2, hr2⟩ := dailySectionOf_starts _ _ h2
  obtain ⟨r3, hr3⟩ := searchSectionOf_starts _ h3
  obtain ⟨r4, hr4⟩ := longTermSectionOf_starts _ h4
  obtain ⟨r5, hr5⟩ := dailySectionOf_starts _ _ h5
  refine ⟨s2l "# Memory\n\n", r1 ++ divider, r2 ++ divider, r3 ++ divider,
    r4 ++ divider, r5, ?_⟩
  rw [hout, hctx, hr1, hr2, hr3, hr4, hr5]
  simp [List.append_assoc]

/-- Concrete inputs: five small sources and two 10-character dates. -/
def wInp : MemInputs :=
  { scratchpad := some (s2l "- [ ] a"), todayLog := some (s2l "t"),
    searchResults := some (s2l "s"), longTerm := some (s2l "m"),
    yesterdayLog := some (s2l "y"), today := s2l "2026-02-15",
    yesterday := s2l "2026-02-14" }

/-!
Length bounds on the assembled context.

The program's inputs are JavaScript strings, whose length is below `2 ^ 53`
(ECMAScript bounds `String` length by `2 ^ 53 - 1`), and the section counters
interpolated into the truncation notes are lengths and line counts derived
from them, so `${n}` always renders in plain decimal.  Under these bounds
every `[truncated: …]` note is at most 115 characters and the five capped
sections plus heading and dividers total at most 15286 < 16000 characters:
the overall cap pass never rewrites the assembled context.
-/

theorem jsTrim_length_le (s : List Char) : (jsTrim s).length ≤ s.length := by
  rw [jsTrim]
  rw [List.length_reverse]
  calc (((s.dropWhile isJsWs).reverse).dropWhile isJsWs).length
      ≤ ((s.dropWhile isJsWs).reverse).length := (List.dropWhile_sublist _).length_le
    _ = (s.dropWhile isJsWs).length := List.length_reverse _
    _ ≤ s.length := (List.dropWhile_sublist _).length_le

theorem joinNl_length_le (ls : List (List Char)) :
    (joinNl ls).length ≤ (ls.map List.length).sum + ls.length := by
  induction ls with
  | nil => simp [joinNl]
  | cons l rest ih =>
    cases rest with
    | nil => simp [joinNl]
    | cons m ms =>
      rw [joinNl_cons_cons]
      simp only [List.length_append, List.length_cons, List.map_cons,
        List.sum_cons] at ih ⊢
      omega

theorem sum_map_length_le_joinNl (ls : List (List Char)) :
    (ls.map List.length).sum ≤ (joinNl ls).length := by
  induction ls with
  | nil => simp [joinNl]
  | cons l rest ih =>
    cases rest with
    | nil => simp [joinNl]
    | cons m ms =>
      rw [joinNl_cons_cons]
      simp only [List.length_append, List.length_cons, List.map_cons,
        List.sum_cons] at ih ⊢
      omega

theorem splitNl_sum_le (s : List Char) :
    ((splitNl s).map List.length).sum ≤ s.length := by
  have h := sum_map_length_le_joinNl (splitNl s)
  rw [joinNl_splitNl] at h
  exact h

/-- A coarse per-item size: meta line, text, checkbox prefix and separators. -/
def itemSize (it : ScratchpadItem) : Nat := it.meta.length + it.text.length + 10

/-- Length of the carried previous raw line. -/
def prevLen : Option (List Char) → Nat
  | none => 0
  | some p => p.length

theorem metaOf_length_le (prev : Option (List Char)) :
    (metaOf prev).length ≤ prevLen prev := by
  cases prev with
  | none => simp [metaOf, prevLen]
  | some p =>
    simp only [metaOf, prevLen]
    split
    · exact le_refl _
    · simp

theorem parseItemLine_length (line : List Char) (d : Bool) (t : List Char)
    (h : parseItemLine line = some (d, t)) : line.length = t.length + 6 := by
  unfold parseItemLine at h
  split at h
  · split at h
    · injection h with h'
      injection h' with h1 h2
      subst h2
      simp [List.length_cons]
    · exact absurd h (by simp)
  · exact absurd h (by simp)

theorem parseLines_size_le (ls : List (List Char)) : ∀ prev : Option (List Char),
    ((parseLines prev ls).map itemSize).sum ≤
      prevLen prev + (ls.map (fun l => 2 * l.length + 10)).sum := by
  induction ls with
  | nil => intro prev; simp [parseLines]
  | cons line rest ih =>
    intro prev
    rw [parseLines]
    cases hp : parseItemLine line with
    | none =>
      dsimp only
      have h1 := ih (some line)
      simp only [prevLen] at h1
      simp only [List.map_cons, List.sum_cons]
      omega
    | some dt =>
      obtain ⟨d, t⟩ := dt
      dsimp only
      have h1 := ih (some line)
      have h2 := metaOf_length_le prev
      have h3 := parseItemLine_length line d t hp
      simp only [prevLen] at h1
      simp only [List.map_cons, List.sum_cons, itemSize]
      omega

theorem checkboxLine_length (it : ScratchpadItem) :
    (checkboxLine it).length = it.text.length + 6 := by
  rw [checkboxLine]
  simp [List.length_cons]

theorem itemLines_size (it : ScratchpadItem) :
    ((itemLines it).map List.length).sum + (itemLines it).length ≤ itemSize it := by
  rw [itemLines, itemSize]
  by_cases hm : it.meta = []
  · rw [if_pos hm]
    simp [checkboxLine_length, hm]
  · rw [if_neg hm]
    simp [checkboxLine_length]
    omega

theorem body_size_le (items : List ScratchpadItem) :
    ((items.flatMap itemLines).map List.length).sum +
      (items.flatMap itemLines).length ≤ (items.map itemSize).sum := by
  induction items with
  | nil => simp
  | cons it rest ih =>
    have h := itemLines_size it
    simp only [List.flatMap_cons, List.map_append, List.sum_append,
      List.length_append, List.map_cons, List.sum_cons]
    omega

theorem serialize_length_le (items : List ScratchpadItem) :
    (serializeScratchpad items).length ≤ 15 + (items.map itemSize).sum := by
  rw [serializeScratchpad, List.length_append]
  have h1 := joinNl_length_le ([s2l "# Scratchpad", []] ++ items.flatMap itemLines)
  have h2 := body_size_le items
  simp only [List.map_append, List.sum_append, List.length_append] at h1
  have h3 : (([s2l "# Scratchpad", []] : List (List Char)).map List.length).sum = 12 := by
    decide
  have h4 : ([s2l "# Scratchpad", []] : List (List Char)).length = 2 := by decide
  simp only [List.length_cons, List.length_nil]
  omega

theorem sum_le_of_sublist (l1 l2 : List Nat) (h : l1.Sublist l2) :
    l1.sum ≤ l2.sum := by
  induction h with
  | slnil => simp
  | cons a _ ih => simp only [List.sum_cons]; omega
  | cons₂ a _ ih => simp only [List.sum_cons]; omega

theorem sum_affine (ls : List (List Char)) :
    (ls.map (fun l => 2 * l.length + 10)).sum =
      2 * (ls.map List.length).sum + 10 * ls.length := by
  induction ls with
  | nil => simp
  | cons l rest ih =>
    simp only [List.map_cons, List.sum_cons, List.length_cons, ih]
    ring

theorem open_serialize_le (blob : List Char) :
    (serializeScratchpad ((parseScratchpad blob).filter (fun i => !i.done))).length ≤
      12 * blob.length + 25 := by
  have h1 := serialize_length_le ((parseScratchpad blob).filter (fun i => !i.done))
  have h2 : ((((parseScratchpad blob).filter (fun i => !i.done)).map itemSize).sum) ≤
      (((parseScratchpad blob).map itemSize).sum) :=
    sum_le_of_sublist _ _ (List.Sublist.map itemSize (List.filter_sublist _))
  have h3 : (((parseScratchpad blob).map itemSize).sum) ≤
      prevLen none + ((splitNl blob).map (fun l => 2 * l.length + 10)).sum :=
    parseLines_size_le (splitNl blob) none
  have h4 := sum_affine (splitNl blob)
  have h5 := splitNl_sum_le blob
  have h6 := splitNl_length_eq_count blob
  have h7 := List.count_le_length '\n' blob
  simp only [prevLen] at h3
  omega

theorem natChars_length_le (n k : Nat) (hk : 1 ≤ k) (h : n < 10 ^ k) :
    (natChars n).length ≤ k := by
  rw [natChars]
  by_cases h0 : n = 0
  · rw [if_pos h0]
    simpa using hk
  · rw [if_neg h0]
    rw [List.length_reverse, List.length_map]
    rw [Nat.digits_len 10 n (by norm_num) h0]
    have := Nat.log_lt_of_lt_pow h0 h
    omega

theorem truncNote_length_le (r : PreviewResult)
    (h1 : r.previewLines < 10 ^ 19) (h2 : r.totalLines < 10 ^ 19)
    (h3 : r.previewChars < 10 ^ 19) (h4 : r.totalChars < 10 ^ 19) :
    (truncNote r).length ≤ 115 := by
  rw [truncNote]
  have n1 := natChars_length_le r.previewLines 19 (by norm_num) h1
  have n2 := natChars_length_le r.totalLines 19 (by norm_num) h2
  have n3 := natChars_length_le r.previewChars 19 (by norm_num) h3
  have n4 := natChars_length_le r.totalChars 19 (by norm_num) h4
  simp only [List.length_append]
  have c1 : (s2l "\n\n[truncated: showing ").length = 22 := by decide
  have c2 : (s2l " lines, ").length = 8 := by decide
  have c3 : (s2l " chars]").length = 7 := by decide
  have c4 : (['/'] : List Char).length = 1 := by decide
  omega

theorem buildPreview_fields_lt (content : List Char) (ml : Limit) (mc : Int)
    (mode : TruncateMode) (hmc : 0 < mc) (hmcs : mc.toNat < 10 ^ 18)
    (hcl : content.length < 10 ^ 18) :
    (buildPreview content ml (.fin mc) mode).previewLines < 10 ^ 19 ∧
    (buildPreview content ml (.fin mc) mode).totalLines < 10 ^ 19 ∧
    (buildPreview content ml (.fin mc) mode).previewChars < 10 ^ 19 ∧
    (buildPreview content ml (.fin mc) mode).totalChars < 10 ^ 19 := by
  rw [buildPreview]
  by_cases hemp : jsTrim content = []
  · rw [if_pos hemp]
    dsimp only
    norm_num
  · rw [if_neg hemp]
    dsimp only
    have htr : (jsTrim content).length ≤ content.length := jsTrim_length_le content
    set pv := (truncateText
      (joinNl (truncateLines (splitNl (jsTrim content)) ml mode).1) (.fin mc) mode).1
      with hpv
    have hpc : pv.length ≤ mc.toNat := truncateText_length_le _ mc mode hmc
    have hpl : (if pv = [] then 0 else (splitNl pv).length) ≤ pv.length + 1 := by
      split
      · omega
      · rw [splitNl_length_eq_count]
        have := List.count_le_length '\n' pv
        omega
    have htl : (splitNl (jsTrim content)).length = (jsTrim content).count '\n' + 1 :=
      splitNl_length_eq_count _
    have hcnt := List.count_le_length '\n' (jsTrim content)
    refine ⟨?_, ?_, ?_, ?_⟩
    · exact lt_of_le_of_lt hpl (by omega)
    · omega
    · omega
    · omega

theorem formatContextSection_length_le (label content : List Char)
    (mode : TruncateMode) (ml : Limit) (mc : Int) (hmc : 0 < mc)
    (hmcs : mc.toNat < 10 ^ 18) (hcl : content.length < 10 ^ 18) :
    (formatContextSection label content mode ml (.fin mc)).length ≤
      label.length + 2 + mc.toNat + 115 := by
  rw [formatContextSection]
  split
  · simp
  · obtain ⟨f1, f2, f3, f4⟩ := buildPreview_fields_lt content ml mc mode hmc hmcs hcl
    have hp := buildPreview_preview_length_le content ml mc mode hmc
    have hn : (if (buildPreview content ml (.fin mc) mode).truncated then
        truncNote (buildPreview content ml (.fin mc) mode) else []).length ≤ 115 := by
      split
      · exact truncNote_length_le _ f1 f2 f3 f4
      · simp
    simp only [List.length_append]
    have h2 : (s2l "\n\n").length = 2 := by decide
    omega

/-- Length of an optional backing string (0 when the file is absent). -/
def optLen : Option (List Char) → Nat
  | none => 0
  | some s => s.length

theorem scratchpadSectionOf_length_le (sp : Option (List Char))
    (hsz : optLen sp < 2 ^ 53) :
    (scratchpadSectionOf sp).length ≤ 2151 := by
  cases sp with
  | none => simp [scratchpadSectionOf]
  | some blob =>
    simp only [scratchpadSectionOf]
    split
    · simp
    · split
      · have hs := open_serialize_le blob
        have hb : blob.length < 2 ^ 53 := by simpa [optLen] using hsz
        have hcl : (serializeScratchpad
            ((parseScratchpad blob).filter (fun i => !i.done))).length < 10 ^ 18 := by
          have h12 : (12 : Nat) * 2 ^ 53 + 25 < 10 ^ 18 := by norm_num
          omega
        have h := formatContextSection_length_le scratchpadLabel _ .start
          (.fin CONTEXT_SCRATCHPAD_MAX_LINES) CONTEXT_SCRATCHPAD_MAX_CHARS
          (by decide) (by decide) hcl
        have hl : scratchpadLabel.length = 34 := by decide
        have hm : CONTEXT_SCRATCHPAD_MAX_CHARS.toNat = 2000 := by decide
        omega
      · simp

theorem dailySectionOf_length_le (label : List Char) (c : Option (List Char))
    (hsz : optLen c < 2 ^ 53) :
    (dailySectionOf label c).length ≤ label.length + 3117 := by
  cases c with
  | none => simp [dailySectionOf]
  | some content =>
    simp only [dailySectionOf]
    split
    · simp
    · have hb : content.length < 2 ^ 53 := by simpa [optLen] using hsz
      have hcl : content.length < 10 ^ 18 := by
        have h253 : (2 : Nat) ^ 53 < 10 ^ 18 := by norm_num
        omega
      have h := formatContextSection_length_le label content .end_
        (.fin CONTEXT_DAILY_MAX_LINES) CONTEXT_DAILY_MAX_CHARS (by decide) (by decide) hcl
      have hm : CONTEXT_DAILY_MAX_CHARS.toNat = 3000 := by decide
      omega

theorem searchSectionOf_length_le (c : Option (List Char))
    (hsz : optLen c < 2 ^ 53) :
    (searchSectionOf c).length ≤ 2654 := by
  cases c with
  | none => simp [searchSectionOf]
  | some content =>
    simp only [searchSectionOf]
    split
    · simp
    · have hb : content.length < 2 ^ 53 := by simpa [optLen] using hsz
      have hcl : content.length < 10 ^ 18 := by
        have h253 : (2 : Nat) ^ 53 < 10 ^ 18 := by norm_num
        omega
      have h := formatContextSection_length_le searchLabel content .start
        (.fin CONTEXT_SEARCH_MAX_LINES) CONTEXT_SEARCH_MAX_CHARS (by decide) (by decide) hcl
      have hl : searchLabel.length = 37 := by decide
      have hm : CONTEXT_SEARCH_MAX_CHARS.toNat = 2500 := by decide
      omega

theorem longTermSectionOf_length_le (c : Option (List Char))
    (hsz : optLen c < 2 ^ 53) :
    (longTermSectionOf c).length ≤ 4141 := by
  cases c with
  | none => simp [longTermSectionOf]
  | some content =>
    simp only [longTermSectionOf]
    split
    · simp
    · have hb : content.length < 2 ^ 53 := by simpa [optLen] using hsz
      have hcl : content.length < 10 ^ 18 := by
        have h253 : (2 : Nat) ^ 53 < 10 ^ 18 := by norm_num
        omega
      have h := formatContextSection_length_le longTermLabel content .middle
        (.fin CONTEXT_LONG_TERM_MAX_LINES) CONTEXT_LONG_TERM_MAX_CHARS
        (by decide) (by decide) hcl
      have hl : longTermLabel.length = 24 := by decide
      have hm : CONTEXT_LONG_TERM_MAX_CHARS.toNat = 4000 := by decide
      omega

theorem sectionsOf_eq_of_ne (inp : MemInputs)
    (h1 : scratchpadSectionOf inp.scratchpad ≠ [])
    (h2 : dailySectionOf (todayLabel inp.today) inp.todayLog ≠ [])
    (h3 : searchSectionOf inp.searchResults ≠ [])
    (h4 : longTermSectionOf inp.longTerm ≠ [])
    (h5 : dailySectionOf (yesterdayLabel inp.yesterday) inp.yesterdayLog ≠ []) :
    sectionsOf inp =
      [scratchpadSectionOf inp.scratchpad,
       dailySectionOf (todayLabel inp.today) inp.todayLog,
       searchSectionOf inp.searchResults,
       longTermSectionOf inp.longTerm,
       dailySectionOf (yesterdayLabel inp.yesterday) inp.yesterdayLog] := by
  rw [sectionsOf, pushIf_ne _ h1, pushIf_ne _ h2, pushIf_ne _ h3, pushIf_ne _ h4,
    pushIf_ne _ h5]
  rfl

theorem assembledContext_length_le (inp : MemInputs)
    (hsp : optLen inp.scratchpad < 2 ^ 53) (htd : optLen inp.todayLog < 2 ^ 53)
    (hsr : optLen inp.searchResults < 2 ^ 53) (hlt : optLen inp.longTerm < 2 ^ 53)
    (hyd : optLen inp.yesterdayLog < 2 ^ 53)
    (hdt : inp.today.length = 10) (hdy : inp.yesterday.length = 10)
    (h1 : scratchpadSectionOf inp.scratchpad ≠ [])
    (h2 : dailySectionOf (todayLabel inp.today) inp.todayLog ≠ [])
    (h3 : searchSectionOf inp.searchResults ≠ [])
    (h4 : longTermSectionOf inp.longTerm ≠ [])
    (h5 : dailySectionOf (yesterdayLabel inp.yesterday) inp.yesterdayLog ≠ []) :
    (assembledContext inp).length ≤ 15286 := by
  rw [assembledContext, sectionsOf_eq_of_ne inp h1 h2 h3 h4 h5]
  have hj : joinSections
      [scratchpadSectionOf inp.scratchpad,
       dailySectionOf (todayLabel inp.today) inp.todayLog,
       searchSectionOf inp.searchResults,
       longTermSectionOf inp.longTerm,
       dailySectionOf (yesterdayLabel inp.yesterday) inp.yesterdayLog] =
      scratchpadSectionOf inp.scratchpad ++ (divider ++
        (dailySectionOf (todayLabel inp.today) inp.todayLog ++ (divider ++
        (searchSectionOf inp.searchResults ++ (divider ++
        (longTermSectionOf inp.longTerm ++ (divider ++
        dailySectionOf (yesterdayLabel inp.yesterday) inp.yesterdayLog))))))) := by
    simp [joinSections, List.append_assoc]
  rw [hj]
  have b1 := scratchpadSectionOf_length_le inp.scratchpad hsp
  have b2 := dailySectionOf_length_le (todayLabel inp.today) inp.todayLog htd
  have b3 := searchSectionOf_length_le inp.searchResults hsr
  have b4 := longTermSectionOf_length_le inp.longTerm hlt
  have b5 := dailySectionOf_length_le (yesterdayLabel inp.yesterday) inp.yesterdayLog hyd
  have l2 : (todayLabel inp.today).length = 32 := by
    rw [todayLabel]
    simp only [List.length_append, hdt]
    decide
  have l5 : (yesterdayLabel inp.yesterday).length = 36 := by
    rw [yesterdayLabel]
    simp only [List.length_append, hdy]
    decide
  have hd : divider.length = 7 := by decide
  have hh : (s2l "# Memory\n\n").length = 10 := by decide
  simp only [List.length_append]
  omega

/-- C5: on every combination of inputs the program can supply in which the
scratchpad, today's-log, search-results, long-term and yesterday's-log
sections are all non-empty, the output of `buildMemoryContext` is the single
top-level `# Memory` heading followed by the five sections joined by the
divider in exactly that order, and the five label texts occur in the output
in exactly that relative left-to-right order.  The size hypotheses state
facts of the source language and the program: an ECMAScript string is
shorter than `2 ^ 53` characters, and the date strings come from
`todayStr`/`yesterdayStr` (`toISOString().slice(0, 10)`), which always
produce exactly 10 characters.  Under these bounds every per-section
truncation note is at most 115 characters, the assembled context is at most
15286 < 16000 characters, so the overall cap pass never rewrites it. -/
theorem buildMemoryContext_label_order (inp : MemInputs)
    (hsp : optLen inp.scratchpad < 2 ^ 53) (htd : optLen inp.todayLog < 2 ^ 53)
    (hsr : optLen inp.searchResults < 2 ^ 53) (hlt : optLen inp.longTerm < 2 ^ 53)
    (hyd : optLen inp.yesterdayLog < 2 ^ 53)
    (hdt : inp.today.length = 10) (hdy : inp.yesterday.length = 10)
    (h1 : scratchpadSectionOf inp.scratchpad ≠ [])
    (h2 : dailySectionOf (todayLabel inp.today) inp.todayLog ≠ [])
    (h3 : searchSectionOf inp.searchResults ≠ [])
    (h4 : longTermSectionOf inp.longTerm ≠ [])
    (h5 : dailySectionOf (yesterdayLabel inp.yesterday) inp.yesterdayLog ≠ []) :
    buildMemoryContext inp =
      s2l "# Memory\n\n" ++ scratchpadSectionOf inp.scratchpad ++ divider ++
        dailySectionOf (todayLabel inp.today) inp.todayLog ++ divider ++
        searchSectionOf inp.searchResults ++ divider ++
        longTermSectionOf inp.longTerm ++ divider ++
        dailySectionOf (yesterdayLabel inp.yesterday) inp.yesterdayLog ∧
    labelsInOrder (buildMemoryContext inp) scratchpadLabel (todayLabel inp.today)
      searchLabel longTermLabel (yesterdayLabel inp.yesterday) := by
  have hcap : ((assembledContext inp).length : Int) ≤ CONTEXT_MAX_CHARS := by
    have h := assembledContext_length_le inp hsp htd hsr hlt hyd hdt hdy h1 h2 h3 h4 h5
    rw [show CONTEXT_MAX_CHARS = (16000 : Int) from rfl]
    omega
  exact buildMemoryContext_labels_in_order inp h1 h2 h3 h4 h5 hcap

set_option maxRecDepth 65536 in
/-- Witness for `buildMemoryContext_label_order` at concrete inputs. -/
theorem buildMemoryContext_label_order_witness :
    buildMemoryContext wInp =
      s2l "# Memory\n\n" ++ scratchpadSectionOf wInp.scratchpad ++ divider ++
        dailySectionOf (todayLabel wInp.today) wInp.todayLog ++ divider ++
        searchSectionOf wInp.searchResults ++ divider ++
        longTermSectionOf wInp.longTerm ++ divider ++
        dailySectionOf (yesterdayLabel wInp.yesterday) wInp.yesterdayLog ∧
    labelsInOrder (buildMemoryContext wInp) scratchpadLabel (todayLabel wInp.today)
      searchLabel longTermLabel (yesterdayLabel wInp.yesterday) :=
  buildMemoryContext_label_order wInp (by decide) (by decide) (by decide) (by decide)
    (by decide) (by decide) (by decide) (by decide) (by decide) (by decide) (by decide)
    (by decide)
